import Mathlib

/-!
Verification of the marker-propagation core of the `uv-resolver` crate:
the `UniversalMarker` condition algebra (`src/crates/uv-resolver/src/universal_marker.rs`)
and the two graph algorithms `marker_reachability` and `simplify_conflict_markers`
(`src/crates/uv-resolver/src/graph_ops.rs`).

The opaque boolean-predicate engine (`uv_pep508::MarkerTree`) is external to the
sources under verification; the spec treats it as a black box with constants
TRUE/FALSE, `or`, `and`, `negate`, `implies`, `evaluate`, and structural equality
that detects logical equivalence (the engine keeps markers in a canonical form).
We model a marker extensionally, as the finite set of satisfying
(environment, active-extras) assignments, over finite atom universes `E`
(environments) and `X` (extra names).  Under this model `or`/`and`/`negate` are
union/intersection/complement and structural equality is logical equivalence,
exactly the contract the spec states.
-/

set_option linter.unusedSectionVars false

namespace Uv

/-- A single evaluation point: a concrete marker environment together with the
set of activated extras.  `MarkerTree::evaluate` consumes exactly this data. -/
abbrev World (E X : Type) := E × Finset X

variable {E X : Type} [DecidableEq E] [Fintype E] [DecidableEq X] [Fintype X]
variable {T : Type}

/-- Modelled from the spec: the external predicate engine's marker type
(`uv_pep508::MarkerTree`, not part of the sources under verification),
represented extensionally by its set of satisfying assignments. -/
abbrev MarkerT (E X : Type) := Finset (World E X)

/-- `UniversalMarker` from `universal_marker.rs`: a PEP 508 marker paired with a
conflict marker.  It evaluates to true only when both components do. -/
structure UniversalMarker (E X : Type) where
  pep508_marker : MarkerT E X
  conflict_marker : MarkerT E X

instance instDecidableEqUniversalMarker : DecidableEq (UniversalMarker E X) :=
  fun a b =>
    decidable_of_iff
      (a.pep508_marker = b.pep508_marker ∧ a.conflict_marker = b.conflict_marker)
      (by cases a; cases b; simp)

namespace UniversalMarker

/-- `UniversalMarker::TRUE`: both components always true. -/
def TRUE : UniversalMarker E X := ⟨Finset.univ, Finset.univ⟩

/-- `UniversalMarker::FALSE`: both components always false. -/
def FALSE : UniversalMarker E X := ⟨∅, ∅⟩

/-- `UniversalMarker::or`: componentwise union (the Rust method mutates `self`;
we return the updated value). -/
def or (m other : UniversalMarker E X) : UniversalMarker E X :=
  ⟨m.pep508_marker ∪ other.pep508_marker, m.conflict_marker ∪ other.conflict_marker⟩

/-- `UniversalMarker::and`: componentwise intersection. -/
def and (m other : UniversalMarker E X) : UniversalMarker E X :=
  ⟨m.pep508_marker ∩ other.pep508_marker, m.conflict_marker ∩ other.conflict_marker⟩

/-- `UniversalMarker::evaluate`: true iff both components are satisfied by the
given environment and activated-extras set. -/
def evaluate (m : UniversalMarker E X) (w : World E X) : Prop :=
  w ∈ m.pep508_marker ∧ w ∈ m.conflict_marker

instance (m : UniversalMarker E X) (w : World E X) : Decidable (m.evaluate w) :=
  inferInstanceAs (Decidable (_ ∧ _))

/-- `UniversalMarker::is_true`. -/
def is_true (m : UniversalMarker E X) : Prop :=
  m.pep508_marker = Finset.univ ∧ m.conflict_marker = Finset.univ

/-- `UniversalMarker::is_false`. -/
def is_false (m : UniversalMarker E X) : Prop :=
  m.pep508_marker = ∅ ∨ m.conflict_marker = ∅

/-- The subset ("weaker-or-equal") order on universal markers used by the spec:
`a ⊑ b` iff `a ∪ b = b`, stated componentwise. -/
def le (a b : UniversalMarker E X) : Prop :=
  a.pep508_marker ⊆ b.pep508_marker ∧ a.conflict_marker ⊆ b.conflict_marker

end UniversalMarker

/-- The atomic marker `extra == "x"`: satisfied exactly when `x` is activated
(`MarkerExpression::Extra` with `ExtraOperator::Equal`). -/
def extraMarker (E : Type) [DecidableEq E] [Fintype E] [DecidableEq X] [Fintype X]
    (x : X) : MarkerT E X :=
  Finset.univ.filter fun w => x ∈ w.2

/-- `itertools::tuple_combinations` on a list: all ordered pairs of elements at
strictly increasing positions. -/
def tupleCombinations : List α → List (α × α)
  | [] => []
  | a :: rest => (rest.map fun b => (a, b)) ++ tupleCombinations rest

/-- A conflict item (`uv_pypi_types::ConflictItem`): the code only inspects its
optional extra name, so we model it by that projection. -/
abbrev ConflictItem (X : Type) := Option X

/-- `uv_pypi_types::Conflicts`: a list of conflict sets, each a collection of
items at most one of which may be active at a time. -/
abbrev Conflicts (X : Type) := List (List (ConflictItem X))

/-- The exclusion marker built inside `UniversalMarker::imbibe`: the union, over
every set and every pair of distinct extra items in that set, of
"both extras active". -/
def conflictsExclusion (E : Type) [DecidableEq E] [Fintype E] [DecidableEq X] [Fintype X]
    (conflicts : Conflicts X) : MarkerT E X :=
  conflicts.foldl
    (fun marker set =>
      (tupleCombinations set).foldl
        (fun marker pair =>
          match pair.1, pair.2 with
          | some extra1, some extra2 =>
              marker ∪ ((Finset.univ ∩ extraMarker E extra1) ∩ extraMarker E extra2)
          | _, _ => marker)
        marker)
    ∅

/-- `UniversalMarker::imbibe`: if `conflicts` is empty, return unchanged;
otherwise replace the conflict marker with
`exclusion.negate().implies(conflict_marker)` where `implies` is material
implication (`self := self.negate().or(other)` on the predicate engine). -/
def UniversalMarker.imbibe (m : UniversalMarker E X) (conflicts : Conflicts X) :
    UniversalMarker E X :=
  if conflicts.isEmpty then m
  else
    let marker := conflictsExclusion E conflicts
    let marker := markerᶜ
    let marker := markerᶜ ∪ m.conflict_marker
    ⟨m.pep508_marker, marker⟩

/-- Modelled from the spec: `MarkerTree::simplify_extras_with` from `uv_pep508`
(not part of the sources under verification).  Per the spec, clauses about a
feature whose state is known are folded away: the marker is restricted by
substituting "active" for every extra matching the predicate. -/
def simplifyExtrasWith (m : MarkerT E X) (p : X → Prop) [DecidablePred p] : MarkerT E X :=
  Finset.univ.filter fun w => (w.1, w.2 ∪ Finset.univ.filter p) ∈ m

/-- `UniversalMarker::assume_extra`: simplify the conflict marker assuming the
given extra is activated; the PEP 508 marker is untouched. -/
def UniversalMarker.assume_extra (m : UniversalMarker E X) (extra : X) :
    UniversalMarker E X :=
  ⟨m.pep508_marker, simplifyExtrasWith m.conflict_marker fun candidate => candidate = extra⟩

/-- A `petgraph::Graph`: nodes `0 .. nodeCount-1` carrying a weight of type
`T`, and a list of weighted directed edges `((source, target), weight)`.
Edge identifiers are positions in the edge list. -/
structure Graph (T W : Type) where
  nodeCount : ℕ
  nodeWeight : Fin nodeCount → T
  edges : List ((Fin nodeCount × Fin nodeCount) × W)

/-- A root node: no incoming edges
(`graph.edges_directed(n, Direction::Incoming).next().is_none()`). -/
def isRoot (g : Graph T W) (v : Fin g.nodeCount) : Prop :=
  ∀ e ∈ g.edges, e.1.2 ≠ v

instance (g : Graph T W) (v : Fin g.nodeCount) : Decidable (isRoot g v) :=
  inferInstanceAs (Decidable (∀ _ ∈ _, _))

/-- The initial queue of `marker_reachability` and `simplify_conflict_markers`:
all root nodes. -/
def rootList (g : Graph T W) : List (Fin g.nodeCount) :=
  (List.finRange g.nodeCount).filter fun v => decide (isRoot g v)

/-- `graph.edges_directed(v, Direction::Outgoing)`: the edges with source `v`. -/
def outEdges (g : Graph T W) (v : Fin g.nodeCount) :
    List ((Fin g.nodeCount × Fin g.nodeCount) × W) :=
  g.edges.filter fun e => decide (e.1.1 = v)

/-- One edge of the `marker_reachability` inner loop: compute
`child_marker = edge_weight.and(parent_marker)`, then either insert it (vacant
entry), merge it by `or` and re-queue the child when the merge changes the
stored marker, or leave the state alone.  The state is the pair
(reachability map, work stack); `marker` is the popped parent's stored marker,
read once before the edge loop. -/
def reachStep {n : ℕ} (marker : UniversalMarker E X)
    (st : (Fin n → Option (UniversalMarker E X)) × List (Fin n))
    (e : (Fin n × Fin n) × UniversalMarker E X) :
    (Fin n → Option (UniversalMarker E X)) × List (Fin n) :=
  let child_marker := e.2.and marker
  match st.1 e.1.2 with
  | some existing =>
      let merged := child_marker.or existing
      if merged = existing then st
      else (Function.update st.1 e.1.2 (some merged), e.1.2 :: st.2)
  | none => (Function.update st.1 e.1.2 (some child_marker), e.1.2 :: st.2)

/-- The inner loop of `marker_reachability` for one popped parent: fold
`reachStep` over the parent's outgoing edges. -/
def processEdges {n : ℕ} (marker : UniversalMarker E X)
    (es : List ((Fin n × Fin n) × UniversalMarker E X))
    (st : (Fin n → Option (UniversalMarker E X)) × List (Fin n)) :
    (Fin n → Option (UniversalMarker E X)) × List (Fin n) :=
  es.foldl (reachStep marker) st

/-- The `while let Some(parent_index) = queue.pop()` loop of
`marker_reachability`, with an explicit fuel parameter bounding the number of
iterations.  `marker_reachability` supplies a fuel for which the queue provably
empties, so the fuelled loop is exactly the Rust loop.  Popping a node with no
stored marker cannot happen from the initial state (the Rust code indexes the
map unconditionally); that branch merely skips the node. -/
def reachLoopF (g : Graph T (UniversalMarker E X)) :
    ℕ → (Fin g.nodeCount → Option (UniversalMarker E X)) → List (Fin g.nodeCount) →
    (Fin g.nodeCount → Option (UniversalMarker E X)) × List (Fin g.nodeCount)
  | 0, reach, queue => (reach, queue)
  | _ + 1, reach, [] => (reach, [])
  | fuel + 1, reach, v :: rest =>
      match reach v with
      | none => reachLoopF g fuel reach rest
      | some marker =>
          let st := processEdges marker (outEdges g v) (reach, rest)
          reachLoopF g fuel st.1 st.2

/-- Termination potential of one map entry: how far the entry is from the top
of the (finite) lattice of universal markers; an absent entry sits strictly
above any present one. -/
def pot (U : ℕ) : Option (UniversalMarker E X) → ℕ
  | none => 2 * U + 1
  | some m => (U - m.pep508_marker.card) + (U - m.conflict_marker.card)

/-- Total termination potential of a reachability map. -/
def potSum {n : ℕ} (U : ℕ) (reach : Fin n → Option (UniversalMarker E X)) : ℕ :=
  ∑ v, pot U (reach v)

/-- A fuel sufficient for `reachLoopF` to drain its queue (proved below). -/
def reachFuel (g : Graph T (UniversalMarker E X))
    (reach : Fin g.nodeCount → Option (UniversalMarker E X))
    (queue : List (Fin g.nodeCount)) : ℕ :=
  2 * potSum (Fintype.card (World E X)) reach + queue.length

/-- The marker every root receives: `TRUE` when `fork_markers` is empty,
otherwise the `or`-fold of `fork_markers` starting from `FALSE`. -/
def rootMarkers (fork_markers : List (UniversalMarker E X)) : UniversalMarker E X :=
  if fork_markers.isEmpty then UniversalMarker.TRUE
  else fork_markers.foldl (fun acc marker => acc.or marker) UniversalMarker.FALSE

/-- The reachability map after the initial
`for root_index in &queue { reachability.insert(root_index, root_markers) }`:
exactly the roots are present, each bound to the root marker. -/
def initReach (g : Graph T (UniversalMarker E X))
    (fork_markers : List (UniversalMarker E X)) :
    Fin g.nodeCount → Option (UniversalMarker E X) :=
  fun v => if v ∈ rootList g then some (rootMarkers fork_markers) else none

/-- `marker_reachability` from `graph_ops.rs`: collect the roots, initialize
every root to the root marker, then propagate markers until the work stack is
empty.  The returned map is `none` exactly on the absent keys. -/
def marker_reachability (g : Graph T (UniversalMarker E X))
    (fork_markers : List (UniversalMarker E X)) :
    Fin g.nodeCount → Option (UniversalMarker E X) :=
  (reachLoopF g (reachFuel g (initReach g fork_markers) (rootList g))
    (initReach g fork_markers) (rootList g)).1

/-- `IsPathFrom g u v es`: `es` is a path of edges of `g` leading from `u` to
`v`. -/
def IsPathFrom (g : Graph T (UniversalMarker E X)) :
    Fin g.nodeCount → Fin g.nodeCount →
    List ((Fin g.nodeCount × Fin g.nodeCount) × UniversalMarker E X) → Prop
  | u, v, [] => u = v
  | u, v, e :: es => e ∈ g.edges ∧ e.1.1 = u ∧ IsPathFrom g e.1.2 v es

/-- The marker accumulated along a path, starting from `c` at its first node:
each edge conjoins its weight exactly as the propagation loop does
(`child_marker = edge_weight.and(parent_marker)`). -/
def condAlong (c : UniversalMarker E X) :
    List ((Fin n × Fin n) × UniversalMarker E X) → UniversalMarker E X
  | [] => c
  | e :: es => condAlong (e.2.and c) es

/-- `graph.edges_directed(v, Direction::Outgoing)` together with `edge.id()`:
outgoing edges of `v` paired with their position in the edge list. -/
def outEdgesIdx (g : Graph T W) (v : Fin g.nodeCount) :
    List (ℕ × ((Fin g.nodeCount × Fin g.nodeCount) × W)) :=
  g.edges.enum.filter fun p => decide (p.2.1.1 = v)

/-- The state of the `simplify_conflict_markers` traversal.  `pushedLog` is a
history variable recording every node ever placed on the queue (the initial
roots plus every later push); it does not influence the computation and exists
only to state the single-pass property. -/
structure CState (n : ℕ) (X : Type) where
  activated : Fin n → Finset X
  assume_by_edge : ℕ → Finset X
  seen : Finset (Fin n)
  queue : List (Fin n)
  pushedLog : List (Fin n)

/-- One edge step of the `simplify_conflict_markers` traversal: accumulate the
extras known active along the edge into `activated[target]` and
`assume_by_edge[edge]`, and push the target if it was not seen before.
Missing map entries behave as the empty set (`unwrap_or_default` /
`or_default`). -/
def conflictStep (g : Graph (Option X) (UniversalMarker E X)) (parent : Fin g.nodeCount)
    (st : CState g.nodeCount X)
    (p : ℕ × ((Fin g.nodeCount × Fin g.nodeCount) × UniversalMarker E X)) :
    CState g.nodeCount X :=
  let target := p.2.1.2
  let extras := st.activated parent
  let extras :=
    match g.nodeWeight parent with
    | some extra => insert extra extras
    | none => extras
  let extras :=
    match g.nodeWeight target with
    | some extra => insert extra extras
    | none => extras
  let st' : CState g.nodeCount X :=
    { st with
      activated := Function.update st.activated target (st.activated target ∪ extras)
      assume_by_edge :=
        Function.update st.assume_by_edge p.1 (st.assume_by_edge p.1 ∪ extras) }
  if target ∈ st.seen then st'
  else
    { st' with
      seen := insert target st.seen
      queue := target :: st'.queue
      pushedLog := target :: st'.pushedLog }

/-- The `while let Some(parent_index) = queue.pop()` loop of
`simplify_conflict_markers`, fuelled; `conflictRun` supplies a fuel for which
the queue provably empties. -/
def conflictLoopF (g : Graph (Option X) (UniversalMarker E X)) :
    ℕ → CState g.nodeCount X → CState g.nodeCount X
  | 0, st => st
  | fuel + 1, st =>
      match st.queue with
      | [] => st
      | v :: rest =>
          conflictLoopF g fuel
            ((outEdgesIdx g v).foldl (conflictStep g v) { st with queue := rest })

/-- The initial traversal state: empty maps, all roots queued. -/
def conflictInit (g : Graph (Option X) (UniversalMarker E X)) : CState g.nodeCount X :=
  { activated := fun _ => ∅
    assume_by_edge := fun _ => ∅
    seen := ∅
    queue := rootList g
    pushedLog := rootList g }

/-- The completed `simplify_conflict_markers` traversal. -/
def conflictRun (g : Graph (Option X) (UniversalMarker E X)) : CState g.nodeCount X :=
  conflictLoopF g ((rootList g).length + g.nodeCount) (conflictInit g)

instance : LeftCommutative fun (x : X) (m : UniversalMarker E X) => m.assume_extra x :=
  ⟨fun x y m => by
    unfold UniversalMarker.assume_extra simplifyExtrasWith
    refine congrArg (UniversalMarker.mk m.pep508_marker) ?_
    have hx : ∀ z : X, Finset.univ.filter (fun c => c = z) = {z} := by
      intro z
      ext c
      simp
    ext w
    simp only [Finset.mem_filter, Finset.mem_univ, true_and, hx]
    rw [Finset.union_right_comm]⟩

/-- `for extra in &extras { graph[edge_id].assume_extra(extra) }`: apply
`assume_extra` once for each element of the set.  Iteration order over a hash
set is unspecified; the fold is well defined because `assume_extra`
applications commute (the instance above). -/
def applyAssume (s : Finset X) (m : UniversalMarker E X) : UniversalMarker E X :=
  Multiset.foldr (fun x m => UniversalMarker.assume_extra m x) m s.val

/-- `simplify_conflict_markers` from `graph_ops.rs`: run the forward traversal,
then rewrite each edge weight by assuming every extra accumulated for that
edge.  Mutation in place is modelled by returning the rewritten graph. -/
def simplify_conflict_markers (g : Graph (Option X) (UniversalMarker E X)) :
    Graph (Option X) (UniversalMarker E X) :=
  let st := conflictRun g
  { nodeCount := g.nodeCount
    nodeWeight := g.nodeWeight
    edges := g.edges.enum.map fun p => (p.2.1, applyAssume (st.assume_by_edge p.1) p.2.2) }

/-- Every satisfying assignment of `m` is reached along some root path to `v`
whose accumulated marker also satisfies it (componentwise). -/
def PathInvAt (g : Graph T (UniversalMarker E X)) (rootM : UniversalMarker E X)
    (v : Fin g.nodeCount) (m : UniversalMarker E X) : Prop :=
  (∀ w ∈ m.pep508_marker, ∃ r es, isRoot g r ∧ IsPathFrom g r v es ∧
    w ∈ (condAlong rootM es).pep508_marker) ∧
  (∀ w ∈ m.conflict_marker, ∃ r es, isRoot g r ∧ IsPathFrom g r v es ∧
    w ∈ (condAlong rootM es).conflict_marker)

/-- `PathInvAt` for every stored entry of a reachability map. -/
def PathInv (g : Graph T (UniversalMarker E X)) (rootM : UniversalMarker E X)
    (reach : Fin g.nodeCount → Option (UniversalMarker E X)) : Prop :=
  ∀ v m, reach v = some m → PathInvAt g rootM v m

/-- Every stored node of the map is reachable from some root. -/
def ReachInv (g : Graph T (UniversalMarker E X))
    (reach : Fin g.nodeCount → Option (UniversalMarker E X)) : Prop :=
  ∀ v, (reach v).isSome → ∃ r es, isRoot g r ∧ IsPathFrom g r v es

/-- Node `u` with stored marker `mu` has fully propagated to its children: each
outgoing edge's target stores at least the edge weight conjoined with `mu`. -/
def Closure (g : Graph T (UniversalMarker E X))
    (reach : Fin g.nodeCount → Option (UniversalMarker E X))
    (u : Fin g.nodeCount) (mu : UniversalMarker E X) : Prop :=
  ∀ e ∈ outEdges g u, ∃ mv, reach e.1.2 = some mv ∧ (e.2.and mu).le mv

/-- The worklist invariant: every stored node is either still queued or fully
propagated. -/
def Jinv (g : Graph T (UniversalMarker E X))
    (reach : Fin g.nodeCount → Option (UniversalMarker E X))
    (queue : List (Fin g.nodeCount)) : Prop :=
  ∀ u mu, reach u = some mu → u ∈ queue ∨ Closure g reach u mu

/-- A two-node graph with two parallel edges from the root to node 1, labelled
`Xm` and `Ym` (the shape of the spec's soundness-of-union scenario). -/
def twoEdgeGraph (Xm Ym : UniversalMarker E X) : Graph Unit (UniversalMarker E X) :=
  { nodeCount := 2
    nodeWeight := fun _ => ()
    edges := [((0, 1), Xm), ((0, 1), Ym)] }

/-- Concrete marker over environments `Bool` and the single extra `Unit`:
environment bit set, extra active. -/
def mrX : UniversalMarker Bool Unit :=
  ⟨Finset.univ.filter fun w => w.1 = true, Finset.univ.filter fun w => () ∈ w.2⟩

/-- Concrete marker: environment bit clear, extra inactive. -/
def mrY : UniversalMarker Bool Unit :=
  ⟨Finset.univ.filter fun w => w.1 = false, Finset.univ.filter fun w => () ∉ w.2⟩

/-- A world satisfying neither `mrX` nor `mrY` (bit set but extra inactive). -/
def wXY : World Bool Unit := (true, ∅)

/-- The spec's conflict-simplification scenario: `root → P[extra] → Q` where
the second edge's conflict marker is "the extra is active". -/
def gScenC : Graph (Option Unit) (UniversalMarker Unit Unit) :=
  { nodeCount := 3
    nodeWeight := ![none, some (), none]
    edges :=
      [((0, 1), UniversalMarker.TRUE),
       ((1, 2), ⟨Finset.univ, extraMarker Unit ()⟩)] }

/-- A one-root, one-edge graph over the trivial world type, used to instantiate
hypotheses of the general reachability theorems at a concrete input. -/
def gLine : Graph Unit (UniversalMarker Unit Unit) :=
  { nodeCount := 2
    nodeWeight := fun _ => ()
    edges := [((0, 1), UniversalMarker.TRUE)] }

/-- Invariant of the `simplify_conflict_markers` traversal: the log of nodes
ever queued has no duplicates, and every logged node is either already `seen`
or an initial root (the code does not mark the roots as seen, but a root can
never be re-pushed because pushes only happen at edge targets). -/
def CInv (g : Graph (Option X) (UniversalMarker E X)) (st : CState g.nodeCount X) : Prop :=
  st.pushedLog.Nodup ∧ ∀ v ∈ st.pushedLog, v ∈ st.seen ∨ isRoot g v

/-- A dummy edge, used as the default of `List.getD` when stating facts about
a particular edge of a graph. -/
def dummyEdge (g : Graph (Option X) (UniversalMarker E X)) (hn : 0 < g.nodeCount) :
    (Fin g.nodeCount × Fin g.nodeCount) × UniversalMarker E X :=
  ((⟨0, hn⟩, ⟨0, hn⟩), UniversalMarker.FALSE)

theorem UniversalMarker.le_refl (a : UniversalMarker E X) : a.le a :=
  ⟨Finset.Subset.refl _, Finset.Subset.refl _⟩

theorem UniversalMarker.le_trans {a b c : UniversalMarker E X} (hab : a.le b)
    (hbc : b.le c) : a.le c :=
  ⟨Finset.Subset.trans hab.1 hbc.1, Finset.Subset.trans hab.2 hbc.2⟩

theorem UniversalMarker.le_or_left (a b : UniversalMarker E X) : a.le (a.or b) :=
  ⟨Finset.subset_union_left, Finset.subset_union_left⟩

theorem UniversalMarker.le_or_right (a b : UniversalMarker E X) : b.le (a.or b) :=
  ⟨Finset.subset_union_right, Finset.subset_union_right⟩

theorem UniversalMarker.le_iff_or {a b : UniversalMarker E X} : a.le b ↔ a.or b = b := by
  unfold UniversalMarker.le UniversalMarker.or
  constructor
  · intro h
    cases a
    cases b
    simp only [UniversalMarker.mk.injEq]
    exact ⟨Finset.union_eq_right.mpr h.1, Finset.union_eq_right.mpr h.2⟩
  · intro h
    have h1 := congrArg UniversalMarker.pep508_marker h
    have h2 := congrArg UniversalMarker.conflict_marker h
    exact ⟨Finset.union_eq_right.mp h1, Finset.union_eq_right.mp h2⟩

theorem UniversalMarker.and_le_and_right {a b : UniversalMarker E X}
    (e : UniversalMarker E X) (h : a.le b) : (e.and a).le (e.and b) :=
  ⟨Finset.inter_subset_inter (Finset.Subset.refl _) h.1,
   Finset.inter_subset_inter (Finset.Subset.refl _) h.2⟩

theorem UniversalMarker.evaluate_of_le {a b : UniversalMarker E X} {w : World E X}
    (h : a.le b) (ha : a.evaluate w) : b.evaluate w :=
  ⟨h.1 ha.1, h.2 ha.2⟩

/-- Claim C10: with an empty `Conflicts`, `imbibe` returns the universal marker
entirely unchanged — both the PEP 508 marker and the conflict marker are
exactly as before the call, and no implication wrapper is added. -/
theorem imbibe_empty_frame (m : UniversalMarker E X) :
    m.imbibe ([] : Conflicts X) = m := rfl

/-- Claim C6: `imbibe` (the spec's `refine_with_feature_sets`) is idempotent:
imbibing the same conflicts twice yields the same universal marker — in
particular the same conflict predicate — as imbibing them once. -/
theorem imbibe_idempotent (m : UniversalMarker E X) (conflicts : Conflicts X) :
    (m.imbibe conflicts).imbibe conflicts = m.imbibe conflicts := by
  unfold UniversalMarker.imbibe
  by_cases h : conflicts.isEmpty
  · simp [h]
  · simp only [h, Bool.false_eq_true, if_false, compl_compl]
    refine congrArg (UniversalMarker.mk m.pep508_marker) ?_
    rw [← Finset.union_assoc, Finset.union_self]

theorem assume_extra_mem_active (m : UniversalMarker E X) (x : X)
    (w : World E X) (hx : x ∈ w.2) :
    (w ∈ (m.assume_extra x).conflict_marker ↔ w ∈ m.conflict_marker) := by
  unfold UniversalMarker.assume_extra simplifyExtrasWith
  have hsing : Finset.univ.filter (fun c => c = x) = {x} := by
    ext c
    simp
  simp only [Finset.mem_filter, Finset.mem_univ, true_and, hsing,
    Finset.union_eq_left.mpr (Finset.singleton_subset_iff.mpr hx)]

/-- Claim C5: for every conflict predicate, every extra assumed active via
`assume_extra`, and every (environment, activated extras) evaluation point in
which that extra is active, the simplified conflict predicate evaluates to the
same boolean as the pre-simplification one. -/
theorem assume_extra_eval_on_active (m : UniversalMarker E X) (x : X)
    (w : World E X) (hx : x ∈ w.2) :
    (w ∈ (m.assume_extra x).conflict_marker ↔ w ∈ m.conflict_marker) :=
  assume_extra_mem_active m x w hx

/-- Witness for C5 at a concrete input: the single extra is active in the
world `((), {()})`, and simplification preserves evaluation there. -/
theorem assume_extra_eval_on_active_witness :
    () ∈ (((), ({()} : Finset Unit)) : World Unit Unit).2 ∧
    ((((), ({()} : Finset Unit)) : World Unit Unit) ∈
        ((⟨Finset.univ, extraMarker Unit ()⟩ : UniversalMarker Unit Unit).assume_extra
          ()).conflict_marker ↔
      (((), ({()} : Finset Unit)) : World Unit Unit) ∈
        (⟨Finset.univ, extraMarker Unit ()⟩ :
          UniversalMarker Unit Unit).conflict_marker) :=
  ⟨by decide,
   assume_extra_eval_on_active (⟨Finset.univ, extraMarker Unit ()⟩ :
     UniversalMarker Unit Unit) () ((), ({()} : Finset Unit)) (by decide)⟩

theorem reachStep_queue_mono {n : ℕ} (marker : UniversalMarker E X)
    (st : (Fin n → Option (UniversalMarker E X)) × List (Fin n))
    (e : (Fin n × Fin n) × UniversalMarker E X) {u : Fin n} (h : u ∈ st.2) :
    u ∈ (reachStep marker st e).2 := by
  unfold reachStep
  cases hm : st.1 e.1.2 with
  | none => exact List.mem_cons_of_mem _ h
  | some existing =>
    dsimp only
    split
    · exact h
    · exact List.mem_cons_of_mem _ h

theorem reachStep_reach_mono {n : ℕ} (marker : UniversalMarker E X)
    (st : (Fin n → Option (UniversalMarker E X)) × List (Fin n))
    (e : (Fin n × Fin n) × UniversalMarker E X) {u : Fin n}
    {m : UniversalMarker E X} (h : st.1 u = some m) :
    ∃ m', (reachStep marker st e).1 u = some m' ∧ m.le m' := by
  unfold reachStep
  cases hm : st.1 e.1.2 with
  | none =>
    dsimp only
    rcases eq_or_ne u e.1.2 with rfl | hne
    · rw [h] at hm
      exact absurd hm (by simp)
    · exact ⟨m, by rw [Function.update_noteq hne, h], UniversalMarker.le_refl m⟩
  | some existing =>
    dsimp only
    split
    · exact ⟨m, h, UniversalMarker.le_refl m⟩
    · rcases eq_or_ne u e.1.2 with rfl | hne
      · rw [h] at hm
        cases hm
        exact ⟨(e.2.and marker).or m, by simp, UniversalMarker.le_or_right _ _⟩
      · exact ⟨m, by simp [Function.update_noteq hne, h], UniversalMarker.le_refl m⟩

theorem reachStep_changed_target {n : ℕ} (marker : UniversalMarker E X)
    (st : (Fin n → Option (UniversalMarker E X)) × List (Fin n))
    (e : (Fin n × Fin n) × UniversalMarker E X) {u : Fin n}
    (h : (reachStep marker st e).1 u ≠ st.1 u) : u = e.1.2 := by
  by_contra hne
  apply h
  unfold reachStep
  cases hm : st.1 e.1.2 with
  | none => exact Function.update_noteq hne _ _
  | some existing =>
    dsimp only
    split
    · rfl
    · exact Function.update_noteq hne _ _

theorem reachStep_changed_queued {n : ℕ} (marker : UniversalMarker E X)
    (st : (Fin n → Option (UniversalMarker E X)) × List (Fin n))
    (e : (Fin n × Fin n) × UniversalMarker E X) {u : Fin n}
    (h : (reachStep marker st e).1 u ≠ st.1 u) : u ∈ (reachStep marker st e).2 := by
  have ht := reachStep_changed_target marker st e h
  subst ht
  revert h
  unfold reachStep
  cases hm : st.1 e.1.2 with
  | none => intro _; exact List.mem_cons_self _ _
  | some existing =>
    dsimp only
    intro h
    by_cases hc : (e.2.and marker).or existing = existing
    · rw [if_pos hc] at h
      exact absurd hm h
    · rw [if_neg hc]
      exact List.mem_cons_self _ _

theorem reachStep_establish {n : ℕ} (marker : UniversalMarker E X)
    (st : (Fin n → Option (UniversalMarker E X)) × List (Fin n))
    (e : (Fin n × Fin n) × UniversalMarker E X) :
    ∃ mv, (reachStep marker st e).1 e.1.2 = some mv ∧ (e.2.and marker).le mv := by
  unfold reachStep
  cases hm : st.1 e.1.2 with
  | none => exact ⟨e.2.and marker, by simp, UniversalMarker.le_refl _⟩
  | some existing =>
    dsimp only
    split
    · rename_i hcond
      exact ⟨existing, hm, UniversalMarker.le_iff_or.mpr hcond⟩
    · exact ⟨(e.2.and marker).or existing, by simp, UniversalMarker.le_or_left _ _⟩

theorem processEdges_queue_mono {n : ℕ} (marker : UniversalMarker E X)
    (es : List ((Fin n × Fin n) × UniversalMarker E X))
    (st : (Fin n → Option (UniversalMarker E X)) × List (Fin n)) {u : Fin n}
    (h : u ∈ st.2) : u ∈ (processEdges marker es st).2 := by
  induction es generalizing st with
  | nil => exact h
  | cons e es ih => exact ih _ (reachStep_queue_mono marker st e h)

theorem processEdges_reach_mono {n : ℕ} (marker : UniversalMarker E X)
    (es : List ((Fin n × Fin n) × UniversalMarker E X))
    (st : (Fin n → Option (UniversalMarker E X)) × List (Fin n)) {u : Fin n}
    {m : UniversalMarker E X} (h : st.1 u = some m) :
    ∃ m', (processEdges marker es st).1 u = some m' ∧ m.le m' := by
  induction es generalizing st m with
  | nil => exact ⟨m, h, UniversalMarker.le_refl m⟩
  | cons e es ih =>
    obtain ⟨m1, hm1, hle1⟩ := reachStep_reach_mono marker st e h
    obtain ⟨m2, hm2, hle2⟩ := ih _ hm1
    exact ⟨m2, hm2, UniversalMarker.le_trans hle1 hle2⟩

theorem processEdges_changed_queued {n : ℕ} (marker : UniversalMarker E X)
    (es : List ((Fin n × Fin n) × UniversalMarker E X))
    (st : (Fin n → Option (UniversalMarker E X)) × List (Fin n)) {u : Fin n}
    (h : (processEdges marker es st).1 u ≠ st.1 u) :
    u ∈ (processEdges marker es st).2 := by
  induction es generalizing st with
  | nil => exact absurd rfl h
  | cons e es ih =>
    by_cases hstep : (processEdges marker es (reachStep marker st e)).1 u =
        (reachStep marker st e).1 u
    · have hch : (reachStep marker st e).1 u ≠ st.1 u := by
        intro heq
        exact h (by simpa [processEdges, heq] using hstep)
      exact processEdges_queue_mono marker es _ (reachStep_changed_queued marker st e hch)
    · exact ih _ hstep

theorem processEdges_untouched {n : ℕ} (marker : UniversalMarker E X)
    (es : List ((Fin n × Fin n) × UniversalMarker E X))
    (st : (Fin n → Option (UniversalMarker E X)) × List (Fin n)) {u : Fin n}
    (h : ∀ e ∈ es, e.1.2 ≠ u) : (processEdges marker es st).1 u = st.1 u := by
  induction es generalizing st with
  | nil => rfl
  | cons e es ih =>
    have hstep : (reachStep marker st e).1 u = st.1 u := by
      by_contra hch
      exact h e (List.mem_cons_self _ _) (reachStep_changed_target marker st e hch).symm
    have h1 : processEdges marker (e :: es) st = processEdges marker es (reachStep marker st e) := rfl
    rw [h1, ih _ (fun e' he' => h e' (List.mem_cons_of_mem _ he')), hstep]

theorem processEdges_establish {n : ℕ} (marker : UniversalMarker E X)
    (es : List ((Fin n × Fin n) × UniversalMarker E X))
    (st : (Fin n → Option (UniversalMarker E X)) × List (Fin n)) :
    ∀ e ∈ es, ∃ mv, (processEdges marker es st).1 e.1.2 = some mv ∧
      (e.2.and marker).le mv := by
  induction es generalizing st with
  | nil => intro e he; exact absurd he (List.not_mem_nil e)
  | cons e0 es ih =>
    intro e he
    rcases List.mem_cons.mp he with rfl | he'
    · obtain ⟨mv, hmv, hle⟩ := reachStep_establish marker st e
      obtain ⟨mv', hmv', hle'⟩ := processEdges_reach_mono marker es _ hmv
      exact ⟨mv', hmv', UniversalMarker.le_trans hle hle'⟩
    · exact ih _ e he'

theorem UniversalMarker.mem_and_pep {a b : UniversalMarker E X} {w : World E X} :
    w ∈ (a.and b).pep508_marker ↔ w ∈ a.pep508_marker ∧ w ∈ b.pep508_marker :=
  Finset.mem_inter

theorem UniversalMarker.mem_and_conf {a b : UniversalMarker E X} {w : World E X} :
    w ∈ (a.and b).conflict_marker ↔ w ∈ a.conflict_marker ∧ w ∈ b.conflict_marker :=
  Finset.mem_inter

theorem UniversalMarker.mem_or_pep {a b : UniversalMarker E X} {w : World E X} :
    w ∈ (a.or b).pep508_marker ↔ w ∈ a.pep508_marker ∨ w ∈ b.pep508_marker :=
  Finset.mem_union

theorem UniversalMarker.mem_or_conf {a b : UniversalMarker E X} {w : World E X} :
    w ∈ (a.or b).conflict_marker ↔ w ∈ a.conflict_marker ∨ w ∈ b.conflict_marker :=
  Finset.mem_union

theorem IsPathFrom_append {g : Graph T (UniversalMarker E X)} {r u : Fin g.nodeCount}
    {es : List ((Fin g.nodeCount × Fin g.nodeCount) × UniversalMarker E X)}
    (hp : IsPathFrom g r u es) {e : (Fin g.nodeCount × Fin g.nodeCount) × UniversalMarker E X}
    (he : e ∈ g.edges) (hsrc : e.1.1 = u) : IsPathFrom g r e.1.2 (es ++ [e]) := by
  induction es generalizing r with
  | nil =>
    cases hp
    exact ⟨he, hsrc, rfl⟩
  | cons e0 es ih => exact ⟨hp.1, hp.2.1, ih hp.2.2⟩

theorem condAlong_append {n : ℕ} (c : UniversalMarker E X)
    (es : List ((Fin n × Fin n) × UniversalMarker E X))
    (e : (Fin n × Fin n) × UniversalMarker E X) :
    condAlong c (es ++ [e]) = e.2.and (condAlong c es) := by
  induction es generalizing c with
  | nil => rfl
  | cons e0 es ih => exact ih (e0.2.and c)

theorem reachStep_new_entry {n : ℕ} {marker : UniversalMarker E X}
    {st : (Fin n → Option (UniversalMarker E X)) × List (Fin n)}
    {e : (Fin n × Fin n) × UniversalMarker E X} {m : UniversalMarker E X}
    (h : (reachStep marker st e).1 e.1.2 = some m)
    (hch : (reachStep marker st e).1 e.1.2 ≠ st.1 e.1.2) :
    m = e.2.and marker ∨
      ∃ existing, st.1 e.1.2 = some existing ∧ m = (e.2.and marker).or existing := by
  revert h hch
  unfold reachStep
  cases hm : st.1 e.1.2 with
  | none =>
    intro h _
    simp only [Function.update_same] at h
    cases h
    exact Or.inl rfl
  | some existing =>
    dsimp only
    by_cases hc : (e.2.and marker).or existing = existing
    · rw [if_pos hc]
      intro h hch
      exact absurd hm hch
    · rw [if_neg hc]
      intro h _
      simp only [Function.update_same] at h
      cases h
      exact Or.inr ⟨existing, rfl, rfl⟩

theorem reachStep_pathInv {g : Graph T (UniversalMarker E X)}
    {rootM marker : UniversalMarker E X} {parent : Fin g.nodeCount}
    (hsp : PathInvAt g rootM parent marker)
    {st : (Fin g.nodeCount → Option (UniversalMarker E X)) × List (Fin g.nodeCount)}
    (hinv : PathInv g rootM st.1)
    {e : (Fin g.nodeCount × Fin g.nodeCount) × UniversalMarker E X}
    (hee : e ∈ g.edges) (hsrc : e.1.1 = parent) :
    PathInv g rootM (reachStep marker st e).1 := by
  intro v m hv
  by_cases hch : (reachStep marker st e).1 v = st.1 v
  · rw [hch] at hv
    exact hinv v m hv
  · have hv2 := reachStep_changed_target marker st e hch
    subst hv2
    have hshape := reachStep_new_entry hv hch
    have extend : ∀ w : World E X,
        (w ∈ (e.2.and marker).pep508_marker →
          ∃ r es, isRoot g r ∧ IsPathFrom g r e.1.2 es ∧
            w ∈ (condAlong rootM es).pep508_marker) ∧
        (w ∈ (e.2.and marker).conflict_marker →
          ∃ r es, isRoot g r ∧ IsPathFrom g r e.1.2 es ∧
            w ∈ (condAlong rootM es).conflict_marker) := by
      intro w
      constructor
      · intro hw
        rw [UniversalMarker.mem_and_pep] at hw
        obtain ⟨r, es, hr, hpath, hwc⟩ := hsp.1 w hw.2
        refine ⟨r, es ++ [e], hr, IsPathFrom_append hpath hee hsrc, ?_⟩
        rw [condAlong_append, UniversalMarker.mem_and_pep]
        exact ⟨hw.1, hwc⟩
      · intro hw
        rw [UniversalMarker.mem_and_conf] at hw
        obtain ⟨r, es, hr, hpath, hwc⟩ := hsp.2 w hw.2
        refine ⟨r, es ++ [e], hr, IsPathFrom_append hpath hee hsrc, ?_⟩
        rw [condAlong_append, UniversalMarker.mem_and_conf]
        exact ⟨hw.1, hwc⟩
    rcases hshape with rfl | ⟨existing, hex, rfl⟩
    · exact ⟨fun w hw => (extend w).1 hw, fun w hw => (extend w).2 hw⟩
    · constructor
      · intro w hw
        rcases UniversalMarker.mem_or_pep.mp hw with hw | hw
        · exact (extend w).1 hw
        · exact (hinv _ _ hex).1 w hw
      · intro w hw
        rcases UniversalMarker.mem_or_conf.mp hw with hw | hw
        · exact (extend w).2 hw
        · exact (hinv _ _ hex).2 w hw

theorem processEdges_pathInv {g : Graph T (UniversalMarker E X)}
    {rootM marker : UniversalMarker E X} {parent : Fin g.nodeCount}
    (hsp : PathInvAt g rootM parent marker)
    {es : List ((Fin g.nodeCount × Fin g.nodeCount) × UniversalMarker E X)}
    (hes : ∀ e ∈ es, e ∈ g.edges ∧ e.1.1 = parent)
    {st : (Fin g.nodeCount → Option (UniversalMarker E X)) × List (Fin g.nodeCount)}
    (hinv : PathInv g rootM st.1) :
    PathInv g rootM (processEdges marker es st).1 := by
  induction es generalizing st with
  | nil => exact hinv
  | cons e es ih =>
    have he := hes e (List.mem_cons_self _ _)
    exact ih (fun e' he' => hes e' (List.mem_cons_of_mem _ he'))
      (reachStep_pathInv hsp hinv he.1 he.2)

theorem reachStep_reachInv {g : Graph T (UniversalMarker E X)}
    {marker : UniversalMarker E X} {parent : Fin g.nodeCount}
    (hpp : ∃ r es, isRoot g r ∧ IsPathFrom g r parent es)
    {st : (Fin g.nodeCount → Option (UniversalMarker E X)) × List (Fin g.nodeCount)}
    (hinv : ReachInv g st.1)
    {e : (Fin g.nodeCount × Fin g.nodeCount) × UniversalMarker E X}
    (hee : e ∈ g.edges) (hsrc : e.1.1 = parent) :
    ReachInv g (reachStep marker st e).1 := by
  intro v hv
  by_cases hch : (reachStep marker st e).1 v = st.1 v
  · rw [hch] at hv
    exact hinv v hv
  · have hv2 := reachStep_changed_target marker st e hch
    subst hv2
    obtain ⟨r, es, hr, hp⟩ := hpp
    exact ⟨r, es ++ [e], hr, IsPathFrom_append hp hee hsrc⟩

theorem processEdges_reachInv {g : Graph T (UniversalMarker E X)}
    {marker : UniversalMarker E X} {parent : Fin g.nodeCount}
    (hpp : ∃ r es, isRoot g r ∧ IsPathFrom g r parent es)
    {es : List ((Fin g.nodeCount × Fin g.nodeCount) × UniversalMarker E X)}
    (hes : ∀ e ∈ es, e ∈ g.edges ∧ e.1.1 = parent)
    {st : (Fin g.nodeCount → Option (UniversalMarker E X)) × List (Fin g.nodeCount)}
    (hinv : ReachInv g st.1) :
    ReachInv g (processEdges marker es st).1 := by
  induction es generalizing st with
  | nil => exact hinv
  | cons e es ih =>
    have he := hes e (List.mem_cons_self _ _)
    exact ih (fun e' he' => hes e' (List.mem_cons_of_mem _ he'))
      (reachStep_reachInv hpp hinv he.1 he.2)

theorem pot_lt_of_gt {m m' : UniversalMarker E X}
    (hp : m.pep508_marker ⊆ m'.pep508_marker)
    (hc : m.conflict_marker ⊆ m'.conflict_marker) (hne : m' ≠ m) :
    pot (Fintype.card (World E X)) (some m') < pot (Fintype.card (World E X)) (some m) := by
  have hpc := Finset.card_le_card hp
  have hcc := Finset.card_le_card hc
  have hup : m.pep508_marker.card ≤ Fintype.card (World E X) := Finset.card_le_univ _
  have huc : m.conflict_marker.card ≤ Fintype.card (World E X) := Finset.card_le_univ _
  have hup' : m'.pep508_marker.card ≤ Fintype.card (World E X) := Finset.card_le_univ _
  have huc' : m'.conflict_marker.card ≤ Fintype.card (World E X) := Finset.card_le_univ _
  have hstrict : m.pep508_marker.card < m'.pep508_marker.card ∨
      m.conflict_marker.card < m'.conflict_marker.card := by
    by_contra hcon
    push_neg at hcon
    apply hne
    have h1 : m.pep508_marker = m'.pep508_marker :=
      Finset.eq_of_subset_of_card_le hp hcon.1
    have h2 : m.conflict_marker = m'.conflict_marker :=
      Finset.eq_of_subset_of_card_le hc hcon.2
    cases m
    cases m'
    dsimp only at h1 h2
    rw [← h1, ← h2]
  simp only [pot]
  omega

theorem pot_some_lt_none (U : ℕ) (m : UniversalMarker E X)
    (hp : m.pep508_marker.card ≤ U) (hc : m.conflict_marker.card ≤ U) :
    pot U (some m) < pot U (none : Option (UniversalMarker E X)) := by
  simp only [pot]
  omega

theorem potSum_update_lt {n : ℕ} {U : ℕ} {reach : Fin n → Option (UniversalMarker E X)}
    {t : Fin n} {x : Option (UniversalMarker E X)} (h : pot U x < pot U (reach t)) :
    potSum U (Function.update reach t x) < potSum U reach := by
  unfold potSum
  refine Finset.sum_lt_sum (fun v _ => ?_) ⟨t, Finset.mem_univ t, ?_⟩
  · rcases eq_or_ne v t with rfl | hne
    · rw [Function.update_same]
      exact le_of_lt h
    · rw [Function.update_noteq hne]
  · rw [Function.update_same]
    exact h

theorem reachStep_measure {n : ℕ} (marker : UniversalMarker E X)
    (st : (Fin n → Option (UniversalMarker E X)) × List (Fin n))
    (e : (Fin n × Fin n) × UniversalMarker E X) :
    2 * potSum (Fintype.card (World E X)) (reachStep marker st e).1 +
      (reachStep marker st e).2.length ≤
    2 * potSum (Fintype.card (World E X)) st.1 + st.2.length := by
  unfold reachStep
  cases hm : st.1 e.1.2 with
  | none =>
    dsimp only
    have hlt : potSum (Fintype.card (World E X))
        (Function.update st.1 e.1.2 (some (e.2.and marker))) <
        potSum (Fintype.card (World E X)) st.1 := by
      refine potSum_update_lt ?_
      rw [hm]
      exact pot_some_lt_none _ _ (Finset.card_le_univ _) (Finset.card_le_univ _)
    simp only [List.length_cons]
    omega
  | some existing =>
    dsimp only
    split
    · exact le_refl _
    · rename_i hcond
      have hlt : potSum (Fintype.card (World E X))
          (Function.update st.1 e.1.2 (some ((e.2.and marker).or existing))) <
          potSum (Fintype.card (World E X)) st.1 := by
        refine potSum_update_lt ?_
        rw [hm]
        exact pot_lt_of_gt (Finset.subset_union_right) (Finset.subset_union_right) hcond
      simp only [List.length_cons]
      omega

theorem processEdges_measure {n : ℕ} (marker : UniversalMarker E X)
    (es : List ((Fin n × Fin n) × UniversalMarker E X))
    (st : (Fin n → Option (UniversalMarker E X)) × List (Fin n)) :
    2 * potSum (Fintype.card (World E X)) (processEdges marker es st).1 +
      (processEdges marker es st).2.length ≤
    2 * potSum (Fintype.card (World E X)) st.1 + st.2.length := by
  induction es generalizing st with
  | nil => exact le_refl _
  | cons e es ih => exact le_trans (ih (reachStep marker st e)) (reachStep_measure marker st e)

theorem mem_rootList {g : Graph T W} {v : Fin g.nodeCount} :
    v ∈ rootList g ↔ isRoot g v := by
  simp [rootList, List.mem_filter]

theorem mem_outEdges {g : Graph T W} {v : Fin g.nodeCount}
    {e : (Fin g.nodeCount × Fin g.nodeCount) × W} :
    e ∈ outEdges g v ↔ e ∈ g.edges ∧ e.1.1 = v := by
  simp [outEdges, List.mem_filter]

theorem reachLoopF_cons_none {g : Graph T (UniversalMarker E X)} {fuel : ℕ}
    {reach : Fin g.nodeCount → Option (UniversalMarker E X)}
    {v : Fin g.nodeCount} {rest : List (Fin g.nodeCount)} (hv : reach v = none) :
    reachLoopF g (fuel + 1) reach (v :: rest) = reachLoopF g fuel reach rest := by
  simp [reachLoopF, hv]

theorem reachLoopF_cons_some {g : Graph T (UniversalMarker E X)} {fuel : ℕ}
    {reach : Fin g.nodeCount → Option (UniversalMarker E X)}
    {v : Fin g.nodeCount} {rest : List (Fin g.nodeCount)}
    {marker : UniversalMarker E X} (hv : reach v = some marker) :
    reachLoopF g (fuel + 1) reach (v :: rest) =
      reachLoopF g fuel (processEdges marker (outEdges g v) (reach, rest)).1
        (processEdges marker (outEdges g v) (reach, rest)).2 := by
  simp [reachLoopF, hv]

theorem reachLoopF_reach_mono (g : Graph T (UniversalMarker E X)) :
    ∀ (fuel : ℕ) (reach : Fin g.nodeCount → Option (UniversalMarker E X))
      (queue : List (Fin g.nodeCount)) {u : Fin g.nodeCount} {m : UniversalMarker E X},
      reach u = some m →
      ∃ m', (reachLoopF g fuel reach queue).1 u = some m' ∧ m.le m' := by
  intro fuel
  induction fuel with
  | zero => exact fun reach queue u m h => ⟨m, h, UniversalMarker.le_refl m⟩
  | succ fuel ih =>
    intro reach queue u m h
    cases queue with
    | nil => exact ⟨m, h, UniversalMarker.le_refl m⟩
    | cons v rest =>
      cases hv : reach v with
      | none =>
        rw [reachLoopF_cons_none hv]
        exact ih reach rest h
      | some marker =>
        rw [reachLoopF_cons_some hv]
        obtain ⟨m1, hm1, hle1⟩ :=
          processEdges_reach_mono marker (outEdges g v) (reach, rest) h
        obtain ⟨m2, hm2, hle2⟩ := ih _ _ hm1
        exact ⟨m2, hm2, UniversalMarker.le_trans hle1 hle2⟩

theorem reachLoopF_pathInv (g : Graph T (UniversalMarker E X))
    (rootM : UniversalMarker E X) :
    ∀ (fuel : ℕ) (reach : Fin g.nodeCount → Option (UniversalMarker E X))
      (queue : List (Fin g.nodeCount)), PathInv g rootM reach →
      PathInv g rootM (reachLoopF g fuel reach queue).1 := by
  intro fuel
  induction fuel with
  | zero => exact fun reach queue h => h
  | succ fuel ih =>
    intro reach queue h
    cases queue with
    | nil => exact h
    | cons v rest =>
      cases hv : reach v with
      | none =>
        rw [reachLoopF_cons_none hv]
        exact ih reach rest h
      | some marker =>
        rw [reachLoopF_cons_some hv]
        refine ih _ _ ?_
        exact processEdges_pathInv (h v marker hv)
          (fun e he => mem_outEdges.mp he) h

theorem reachLoopF_reachInv (g : Graph T (UniversalMarker E X)) :
    ∀ (fuel : ℕ) (reach : Fin g.nodeCount → Option (UniversalMarker E X))
      (queue : List (Fin g.nodeCount)), ReachInv g reach →
      ReachInv g (reachLoopF g fuel reach queue).1 := by
  intro fuel
  induction fuel with
  | zero => exact fun reach queue h => h
  | succ fuel ih =>
    intro reach queue h
    cases queue with
    | nil => exact h
    | cons v rest =>
      cases hv : reach v with
      | none =>
        rw [reachLoopF_cons_none hv]
        exact ih reach rest h
      | some marker =>
        rw [reachLoopF_cons_some hv]
        refine ih _ _ ?_
        exact processEdges_reachInv (h v (by rw [hv]; exact rfl))
          (fun e he => mem_outEdges.mp he) h

theorem reachLoopF_root_preserve (g : Graph T (UniversalMarker E X))
    {r : Fin g.nodeCount} (hr : isRoot g r) :
    ∀ (fuel : ℕ) (reach : Fin g.nodeCount → Option (UniversalMarker E X))
      (queue : List (Fin g.nodeCount)),
      (reachLoopF g fuel reach queue).1 r = reach r := by
  intro fuel
  induction fuel with
  | zero => exact fun reach queue => rfl
  | succ fuel ih =>
    intro reach queue
    cases queue with
    | nil => rfl
    | cons v rest =>
      cases hv : reach v with
      | none =>
        rw [reachLoopF_cons_none hv]
        exact ih reach rest
      | some marker =>
        rw [reachLoopF_cons_some hv]
        rw [ih _ _]
        exact processEdges_untouched marker (outEdges g v) (reach, rest)
          (fun e he => hr e (mem_outEdges.mp he).1)

theorem processEdges_jinv {g : Graph T (UniversalMarker E X)}
    {marker : UniversalMarker E X} {v : Fin g.nodeCount}
    {reach : Fin g.nodeCount → Option (UniversalMarker E X)}
    {rest : List (Fin g.nodeCount)} (hv : reach v = some marker)
    (hJ : Jinv g reach (v :: rest)) :
    Jinv g (processEdges marker (outEdges g v) (reach, rest)).1
      (processEdges marker (outEdges g v) (reach, rest)).2 := by
  intro u mu hmu
  by_cases hch : (processEdges marker (outEdges g v) (reach, rest)).1 u = reach u
  · rw [hch] at hmu
    rcases hJ u mu hmu with hq | hcl
    · rcases List.mem_cons.mp hq with rfl | hq'
      · right
        rw [hv] at hmu
        cases hmu
        intro e he
        exact processEdges_establish marker (outEdges g u) (reach, rest) e he
      · left
        exact processEdges_queue_mono marker (outEdges g v) (reach, rest) hq'
    · right
      intro e he
      obtain ⟨mv, hmv, hle⟩ := hcl e he
      obtain ⟨mv', hmv', hle'⟩ :=
        processEdges_reach_mono marker (outEdges g v) (reach, rest) hmv
      exact ⟨mv', hmv', UniversalMarker.le_trans hle hle'⟩
  · left
    exact processEdges_changed_queued marker (outEdges g v) (reach, rest) hch

theorem reachLoopF_jinv (g : Graph T (UniversalMarker E X)) :
    ∀ (fuel : ℕ) (reach : Fin g.nodeCount → Option (UniversalMarker E X))
      (queue : List (Fin g.nodeCount)), Jinv g reach queue →
      Jinv g (reachLoopF g fuel reach queue).1 (reachLoopF g fuel reach queue).2 := by
  intro fuel
  induction fuel with
  | zero => exact fun reach queue h => h
  | succ fuel ih =>
    intro reach queue h
    cases queue with
    | nil => exact h
    | cons v rest =>
      cases hv : reach v with
      | none =>
        rw [reachLoopF_cons_none hv]
        refine ih reach rest ?_
        intro u mu hmu
        rcases h u mu hmu with hq | hcl
        · rcases List.mem_cons.mp hq with rfl | hq'
          · rw [hv] at hmu
            cases hmu
          · exact Or.inl hq'
        · exact Or.inr hcl
      | some marker =>
        rw [reachLoopF_cons_some hv]
        exact ih _ _ (processEdges_jinv hv h)

theorem reachLoopF_term (g : Graph T (UniversalMarker E X)) :
    ∀ (fuel : ℕ) (reach : Fin g.nodeCount → Option (UniversalMarker E X))
      (queue : List (Fin g.nodeCount)),
      2 * potSum (Fintype.card (World E X)) reach + queue.length ≤ fuel →
      (reachLoopF g fuel reach queue).2 = [] := by
  intro fuel
  induction fuel with
  | zero =>
    intro reach queue h
    have hq : queue = [] := List.length_eq_zero.mp (by omega)
    subst hq
    rfl
  | succ fuel ih =>
    intro reach queue h
    cases queue with
    | nil => rfl
    | cons v rest =>
      cases hv : reach v with
      | none =>
        rw [reachLoopF_cons_none hv]
        refine ih reach rest ?_
        simp only [List.length_cons] at h
        omega
      | some marker =>
        rw [reachLoopF_cons_some hv]
        refine ih _ _ ?_
        have hmeas := processEdges_measure marker (outEdges g v) (reach, rest)
        dsimp only at hmeas
        simp only [List.length_cons] at h
        omega

theorem initReach_jinv (g : Graph T (UniversalMarker E X))
    (fork_markers : List (UniversalMarker E X)) :
    Jinv g (initReach g fork_markers) (rootList g) := by
  intro u mu hmu
  by_cases h : u ∈ rootList g
  · exact Or.inl h
  · rw [initReach, if_neg h] at hmu
    cases hmu

theorem initReach_pathInv (g : Graph T (UniversalMarker E X))
    (fork_markers : List (UniversalMarker E X)) :
    PathInv g (rootMarkers fork_markers) (initReach g fork_markers) := by
  intro v m hm
  rw [initReach] at hm
  by_cases h : v ∈ rootList g
  · rw [if_pos h] at hm
    cases hm
    have hv : isRoot g v := mem_rootList.mp h
    exact ⟨fun w hw => ⟨v, [], hv, rfl, hw⟩, fun w hw => ⟨v, [], hv, rfl, hw⟩⟩
  · rw [if_neg h] at hm
    cases hm

theorem initReach_reachInv (g : Graph T (UniversalMarker E X))
    (fork_markers : List (UniversalMarker E X)) :
    ReachInv g (initReach g fork_markers) := by
  intro v hv
  rw [initReach] at hv
  by_cases h : v ∈ rootList g
  · exact ⟨v, [], mem_rootList.mp h, rfl⟩
  · rw [if_neg h] at hv
    cases hv

theorem marker_reachability_closure (g : Graph T (UniversalMarker E X))
    (fork_markers : List (UniversalMarker E X)) {u : Fin g.nodeCount}
    {mu : UniversalMarker E X} (h : marker_reachability g fork_markers u = some mu) :
    Closure g (marker_reachability g fork_markers) u mu := by
  have hterm : (reachLoopF g (reachFuel g (initReach g fork_markers) (rootList g))
      (initReach g fork_markers) (rootList g)).2 = [] :=
    reachLoopF_term g _ _ _ (le_refl _)
  have hJ := reachLoopF_jinv g (reachFuel g (initReach g fork_markers) (rootList g))
    (initReach g fork_markers) (rootList g) (initReach_jinv g fork_markers)
  rcases hJ u mu h with hq | hcl
  · rw [hterm] at hq
    cases hq
  · exact hcl

theorem marker_reachability_root (g : Graph T (UniversalMarker E X))
    (fork_markers : List (UniversalMarker E X)) {r : Fin g.nodeCount}
    (hr : isRoot g r) :
    marker_reachability g fork_markers r = some (rootMarkers fork_markers) := by
  unfold marker_reachability
  rw [reachLoopF_root_preserve g hr, initReach, if_pos (mem_rootList.mpr hr)]

theorem marker_reachability_pathInv (g : Graph T (UniversalMarker E X))
    (fork_markers : List (UniversalMarker E X)) :
    PathInv g (rootMarkers fork_markers) (marker_reachability g fork_markers) :=
  reachLoopF_pathInv g _ _ _ _ (initReach_pathInv g fork_markers)

theorem marker_reachability_reachInv (g : Graph T (UniversalMarker E X))
    (fork_markers : List (UniversalMarker E X)) :
    ReachInv g (marker_reachability g fork_markers) :=
  reachLoopF_reachInv g _ _ _ (initReach_reachInv g fork_markers)

theorem marker_reachability_walk (g : Graph T (UniversalMarker E X))
    (fork_markers : List (UniversalMarker E X)) :
    ∀ (es : List ((Fin g.nodeCount × Fin g.nodeCount) × UniversalMarker E X))
      (u v : Fin g.nodeCount) (c mu : UniversalMarker E X),
      IsPathFrom g u v es → marker_reachability g fork_markers u = some mu →
      c.le mu →
      ∃ mv, marker_reachability g fork_markers v = some mv ∧ (condAlong c es).le mv := by
  intro es
  induction es with
  | nil =>
    intro u v c mu hp hu hle
    cases hp
    exact ⟨mu, hu, hle⟩
  | cons e es ih =>
    intro u v c mu hp hu hle
    obtain ⟨hee, hsrc, hrest⟩ := hp
    obtain ⟨mv, hmv, hlev⟩ := marker_reachability_closure g fork_markers hu e
      (mem_outEdges.mpr ⟨hee, hsrc⟩)
    refine ih e.1.2 v (e.2.and c) mv hrest hmv ?_
    exact UniversalMarker.le_trans (UniversalMarker.and_le_and_right e.2 hle) hlev

theorem marker_reachability_sound_path (g : Graph T (UniversalMarker E X))
    (fork_markers : List (UniversalMarker E X)) {r v : Fin g.nodeCount}
    {es : List ((Fin g.nodeCount × Fin g.nodeCount) × UniversalMarker E X)}
    (hr : isRoot g r) (hp : IsPathFrom g r v es) :
    ∃ mv, marker_reachability g fork_markers v = some mv ∧
      (condAlong (rootMarkers fork_markers) es).le mv :=
  marker_reachability_walk g fork_markers es r v (rootMarkers fork_markers)
    (rootMarkers fork_markers) hp (marker_reachability_root g fork_markers hr)
    (UniversalMarker.le_refl _)

/-- Claim C1: for every finite graph with `UniversalMarker`-labelled edges and
every fork-marker list, `marker_reachability` assigns to each node in its
domain exactly the union (`combine_or`), over every path from any root to that
node, of the root marker conjoined (`combine_and`) with the edge markers along
the path: each path's accumulated marker is absorbed by the stored marker
(`or` leaves it unchanged), and conversely every satisfying assignment of the
stored marker is contributed by some such path, componentwise. -/
theorem marker_reachability_path_union (g : Graph T (UniversalMarker E X))
    (fork_markers : List (UniversalMarker E X)) (v : Fin g.nodeCount)
    (m : UniversalMarker E X) (h : marker_reachability g fork_markers v = some m) :
    (∀ r es, isRoot g r → IsPathFrom g r v es →
      (condAlong (rootMarkers fork_markers) es).or m = m) ∧
    (∀ w ∈ m.pep508_marker, ∃ r es, isRoot g r ∧ IsPathFrom g r v es ∧
      w ∈ (condAlong (rootMarkers fork_markers) es).pep508_marker) ∧
    (∀ w ∈ m.conflict_marker, ∃ r es, isRoot g r ∧ IsPathFrom g r v es ∧
      w ∈ (condAlong (rootMarkers fork_markers) es).conflict_marker) := by
  refine ⟨?_, (marker_reachability_pathInv g fork_markers v m h).1,
    (marker_reachability_pathInv g fork_markers v m h).2⟩
  intro r es hr hp
  obtain ⟨mv, hmv, hle⟩ := marker_reachability_sound_path g fork_markers hr hp
  rw [h] at hmv
  cases hmv
  exact UniversalMarker.le_iff_or.mp hle

/-- Witness for C1 at a concrete input: the one-edge graph `gLine`, whose
non-root node ends up with marker `TRUE`. -/
theorem marker_reachability_path_union_witness :
    marker_reachability gLine [] ⟨1, by decide⟩ = some UniversalMarker.TRUE ∧
    ((∀ r es, isRoot gLine r → IsPathFrom gLine r ⟨1, by decide⟩ es →
      (condAlong (rootMarkers []) es).or UniversalMarker.TRUE = UniversalMarker.TRUE) ∧
    (∀ w ∈ (UniversalMarker.TRUE : UniversalMarker Unit Unit).pep508_marker,
      ∃ r es, isRoot gLine r ∧ IsPathFrom gLine r ⟨1, by decide⟩ es ∧
        w ∈ (condAlong (rootMarkers []) es).pep508_marker) ∧
    (∀ w ∈ (UniversalMarker.TRUE : UniversalMarker Unit Unit).conflict_marker,
      ∃ r es, isRoot gLine r ∧ IsPathFrom gLine r ⟨1, by decide⟩ es ∧
        w ∈ (condAlong (rootMarkers []) es).conflict_marker)) :=
  ⟨by decide,
   marker_reachability_path_union gLine [] ⟨1, by decide⟩ UniversalMarker.TRUE (by decide)⟩

/-- Claim C2: during `marker_reachability`, stored markers only ever widen:
from any intermediate loop state, the final marker `m'` of a node with stored
marker `m` satisfies `m.or m' = m'` (the "weaker-or-equal" order `A ⊑ B` iff
`A ∪ B = B`), and the final marker's satisfying-assignment set is a superset
of the intermediate one.  An overwrite stores `candidate.or(existing)`
(see `reachStep`), so each update is such a widening step. -/
theorem marker_reachability_monotone (g : Graph T (UniversalMarker E X))
    (fuel : ℕ) (reach : Fin g.nodeCount → Option (UniversalMarker E X))
    (queue : List (Fin g.nodeCount)) (v : Fin g.nodeCount)
    (m : UniversalMarker E X) (h : reach v = some m) :
    ∃ m', (reachLoopF g fuel reach queue).1 v = some m' ∧ m.or m' = m' ∧
      ∀ w, m.evaluate w → m'.evaluate w := by
  obtain ⟨m', hm', hle⟩ := reachLoopF_reach_mono g fuel reach queue h
  exact ⟨m', hm', UniversalMarker.le_iff_or.mp hle,
    fun w hw => UniversalMarker.evaluate_of_le hle hw⟩

/-- Witness for C2 at a concrete input: the initial state of `gLine`'s
propagation, whose root keeps a marker at least `TRUE`. -/
theorem marker_reachability_monotone_witness :
    initReach gLine [] ⟨0, by decide⟩ = some UniversalMarker.TRUE ∧
    ∃ m', (reachLoopF gLine 5 (initReach gLine []) (rootList gLine)).1 ⟨0, by decide⟩ =
        some m' ∧ UniversalMarker.TRUE.or m' = m' ∧
      ∀ w, UniversalMarker.TRUE.evaluate w → m'.evaluate w :=
  ⟨by decide,
   marker_reachability_monotone gLine 5 (initReach gLine []) (rootList gLine)
     ⟨0, by decide⟩ UniversalMarker.TRUE (by decide)⟩

/-- Claim C7: every root node (zero in-degree) is mapped by
`marker_reachability` to `TRUE` when `fork_markers` is empty, and otherwise to
the `combine_or` union of all fork markers (the `or`-fold over `FALSE`). -/
theorem marker_reachability_root_value (g : Graph T (UniversalMarker E X))
    (fork_markers : List (UniversalMarker E X)) (r : Fin g.nodeCount)
    (hr : isRoot g r) :
    marker_reachability g fork_markers r =
      some (if fork_markers.isEmpty then UniversalMarker.TRUE
        else fork_markers.foldl (fun acc marker => acc.or marker)
          UniversalMarker.FALSE) := by
  rw [marker_reachability_root g fork_markers hr]
  rfl

/-- Witness for C7 at a concrete input: the root of `gLine` with no fork
markers is mapped to `TRUE`. -/
theorem marker_reachability_root_value_witness :
    isRoot gLine ⟨0, by decide⟩ ∧
    marker_reachability gLine [] ⟨0, by decide⟩ =
      some (if ([] : List (UniversalMarker Unit Unit)).isEmpty then
          UniversalMarker.TRUE
        else ([] : List (UniversalMarker Unit Unit)).foldl
          (fun acc marker => acc.or marker) UniversalMarker.FALSE) :=
  ⟨by decide, marker_reachability_root_value gLine [] ⟨0, by decide⟩ (by decide)⟩

/-- Claim C8: the domain of the map returned by `marker_reachability` is
exactly the set of nodes reachable from some root: a node has an entry iff
there is a path to it from a zero-in-degree node. -/
theorem marker_reachability_domain (g : Graph T (UniversalMarker E X))
    (fork_markers : List (UniversalMarker E X)) (v : Fin g.nodeCount) :
    (marker_reachability g fork_markers v).isSome ↔
      ∃ r es, isRoot g r ∧ IsPathFrom g r v es := by
  constructor
  · exact fun h => marker_reachability_reachInv g fork_markers v h
  · rintro ⟨r, es, hr, hp⟩
    obtain ⟨mv, hmv, _⟩ := marker_reachability_sound_path g fork_markers hr hp
    rw [hmv]
    rfl

theorem option_eq_some_of_getD {α : Type} {o : Option α} {a dflt : α}
    (hs : o.isSome = true) (hg : o.getD dflt = a) : o = some a := by
  cases o with
  | none => cases hs
  | some b => rw [Option.getD_some] at hg; rw [hg]

/-- Counterexample to claim C3 as stated: in the two-parallel-edge graph with
edge markers `mrX` and `mrY`, the reachability marker computed for the child
node evaluates to true at the world `wXY` even though `wXY` satisfies neither
`mrX` nor `mrY` (`UniversalMarker::or` unions the PEP 508 and conflict
components independently, which can mix components of different disjuncts). -/
theorem marker_reachability_two_edge_cex :
    marker_reachability (twoEdgeGraph mrX mrY) [] ⟨1, Nat.one_lt_two⟩ = some (mrX.or mrY) ∧
    (mrX.or mrY).evaluate wXY ∧ ¬mrX.evaluate wXY ∧ ¬mrY.evaluate wXY :=
  ⟨@option_eq_some_of_getD _ _ _ UniversalMarker.FALSE (by decide) (by decide),
   by decide, by decide, by decide⟩

/-- Claim C3 (amended): for a graph with one root and two edges `root → A`
labelled `Xm` and `Ym`, every environment/active-extras pair satisfying `Xm`
or satisfying `Ym` makes the reachability marker computed for `A` true.  (The
converse fails: the marker is the componentwise union, which can also be true
at pairs satisfying neither, per the counterexample.) -/
theorem marker_reachability_two_edge_sound (Xm Ym m : UniversalMarker E X)
    (w : World E X)
    (h : marker_reachability (twoEdgeGraph Xm Ym) [] ⟨1, Nat.one_lt_two⟩ = some m)
    (hor : Xm.evaluate w ∨ Ym.evaluate w) : m.evaluate w := by
  have hroot : isRoot (twoEdgeGraph Xm Ym) ⟨0, Nat.succ_pos 1⟩ := by
    intro e he
    rcases List.mem_cons.mp he with rfl | he'
    · intro hcon
      exact Nat.one_ne_zero (congrArg Fin.val hcon)
    · rcases List.mem_cons.mp he' with rfl | he''
      · intro hcon
        exact Nat.one_ne_zero (congrArg Fin.val hcon)
      · exact absurd he'' (List.not_mem_nil e)
  cases hor with
  | inl hX =>
    have hp : IsPathFrom (twoEdgeGraph Xm Ym) ⟨0, Nat.succ_pos 1⟩ ⟨1, Nat.one_lt_two⟩
        [((⟨0, Nat.succ_pos 1⟩, ⟨1, Nat.one_lt_two⟩), Xm)] :=
      ⟨List.mem_cons_self _ _, rfl, rfl⟩
    obtain ⟨mv, hmv, hle⟩ :=
      marker_reachability_sound_path (twoEdgeGraph Xm Ym) [] hroot hp
    rw [h] at hmv
    cases hmv
    refine UniversalMarker.evaluate_of_le hle ?_
    exact ⟨Finset.mem_inter.mpr ⟨hX.1, Finset.mem_univ w⟩,
      Finset.mem_inter.mpr ⟨hX.2, Finset.mem_univ w⟩⟩
  | inr hY =>
    have hp : IsPathFrom (twoEdgeGraph Xm Ym) ⟨0, Nat.succ_pos 1⟩ ⟨1, Nat.one_lt_two⟩
        [((⟨0, Nat.succ_pos 1⟩, ⟨1, Nat.one_lt_two⟩), Ym)] :=
      ⟨List.mem_cons_of_mem _ (List.mem_cons_self _ _), rfl, rfl⟩
    obtain ⟨mv, hmv, hle⟩ :=
      marker_reachability_sound_path (twoEdgeGraph Xm Ym) [] hroot hp
    rw [h] at hmv
    cases hmv
    refine UniversalMarker.evaluate_of_le hle ?_
    exact ⟨Finset.mem_inter.mpr ⟨hY.1, Finset.mem_univ w⟩,
      Finset.mem_inter.mpr ⟨hY.2, Finset.mem_univ w⟩⟩

/-- Witness for amended C3 at a concrete input: a world satisfying `mrX` makes
the computed marker for the child node true. -/
theorem marker_reachability_two_edge_sound_witness :
    marker_reachability (twoEdgeGraph mrX mrY) [] ⟨1, Nat.one_lt_two⟩ = some (mrX.or mrY) ∧
    (mrX.evaluate ((true, {()}) : World Bool Unit) ∨
      mrY.evaluate ((true, {()}) : World Bool Unit)) ∧
    (mrX.or mrY).evaluate ((true, {()}) : World Bool Unit) :=
  ⟨@option_eq_some_of_getD _ _ _ UniversalMarker.FALSE (by decide) (by decide),
   by decide,
   marker_reachability_two_edge_sound mrX mrY (mrX.or mrY) ((true, {()}) : World Bool Unit)
     (@option_eq_some_of_getD _ _ _ UniversalMarker.FALSE (by decide) (by decide))
     (by decide)⟩

theorem mem_of_mem_enumFrom {α : Type} {l : List α} :
    ∀ {i : ℕ} {p : ℕ × α}, p ∈ l.enumFrom i → p.2 ∈ l := by
  induction l with
  | nil => intro i p hp; cases hp
  | cons a l ih =>
    intro i p hp
    rcases List.mem_cons.mp hp with rfl | hp'
    · exact List.mem_cons_self _ _
    · exact List.mem_cons_of_mem _ (ih hp')

theorem mem_of_mem_enum {α : Type} {l : List α} {p : ℕ × α} (h : p ∈ l.enum) :
    p.2 ∈ l :=
  mem_of_mem_enumFrom h

theorem mem_outEdgesIdx_edges {g : Graph T W} {v : Fin g.nodeCount}
    {p : ℕ × ((Fin g.nodeCount × Fin g.nodeCount) × W)} (h : p ∈ outEdgesIdx g v) :
    p.2 ∈ g.edges ∧ p.2.1.1 = v := by
  unfold outEdgesIdx at h
  have h' := List.mem_filter.mp h
  exact ⟨mem_of_mem_enum h'.1, by simpa using h'.2⟩

theorem conflictStep_measure (g : Graph (Option X) (UniversalMarker E X))
    (parent : Fin g.nodeCount) (st : CState g.nodeCount X)
    (p : ℕ × ((Fin g.nodeCount × Fin g.nodeCount) × UniversalMarker E X)) :
    (conflictStep g parent st p).queue.length +
      (g.nodeCount - (conflictStep g parent st p).seen.card) ≤
    st.queue.length + (g.nodeCount - st.seen.card) := by
  unfold conflictStep
  by_cases h : p.2.1.2 ∈ st.seen
  · rw [if_pos h]
  · rw [if_neg h]
    have hcard : (insert p.2.1.2 st.seen).card = st.seen.card + 1 :=
      Finset.card_insert_of_not_mem h
    have hle : (insert p.2.1.2 st.seen).card ≤ g.nodeCount := by
      refine le_trans (Finset.card_le_univ _) ?_
      simp
    simp only [List.length_cons]
    omega

theorem conflictFold_measure (g : Graph (Option X) (UniversalMarker E X))
    (parent : Fin g.nodeCount)
    (ps : List (ℕ × ((Fin g.nodeCount × Fin g.nodeCount) × UniversalMarker E X)))
    (st : CState g.nodeCount X) :
    (ps.foldl (conflictStep g parent) st).queue.length +
      (g.nodeCount - (ps.foldl (conflictStep g parent) st).seen.card) ≤
    st.queue.length + (g.nodeCount - st.seen.card) := by
  induction ps generalizing st with
  | nil => exact le_refl _
  | cons p ps ih =>
    exact le_trans (ih (conflictStep g parent st p)) (conflictStep_measure g parent st p)

theorem conflictLoopF_term (g : Graph (Option X) (UniversalMarker E X)) :
    ∀ (fuel : ℕ) (st : CState g.nodeCount X),
      st.queue.length + (g.nodeCount - st.seen.card) ≤ fuel →
      (conflictLoopF g fuel st).queue = [] := by
  intro fuel
  induction fuel with
  | zero =>
    intro st h
    have : st.queue = [] := List.length_eq_zero.mp (by omega)
    simp [conflictLoopF, this]
  | succ fuel ih =>
    intro st h
    obtain ⟨act, abe, seen, queue, log⟩ := st
    cases queue with
    | nil => rfl
    | cons v rest =>
      show (conflictLoopF g fuel
        ((outEdgesIdx g v).foldl (conflictStep g v) ⟨act, abe, seen, rest, log⟩)).queue = []
      refine ih _ ?_
      have hmeas := conflictFold_measure g v (outEdgesIdx g v) ⟨act, abe, seen, rest, log⟩
      simp only [List.length_cons] at h
      dsimp only at hmeas ⊢
      omega

theorem conflictStep_cinv (g : Graph (Option X) (UniversalMarker E X))
    (parent : Fin g.nodeCount) (st : CState g.nodeCount X)
    (p : ℕ × ((Fin g.nodeCount × Fin g.nodeCount) × UniversalMarker E X))
    (hp : p.2 ∈ g.edges) (h : CInv g st) : CInv g (conflictStep g parent st p) := by
  unfold conflictStep
  by_cases hseen : p.2.1.2 ∈ st.seen
  · rw [if_pos hseen]
    exact h
  · rw [if_neg hseen]
    have hnotroot : ¬isRoot g p.2.1.2 := fun hr => hr p.2 hp rfl
    have hnotin : p.2.1.2 ∉ st.pushedLog := by
      intro hmem
      rcases h.2 _ hmem with hs | hr
      · exact hseen hs
      · exact hnotroot hr
    refine ⟨List.nodup_cons.mpr ⟨hnotin, h.1⟩, ?_⟩
    intro v hv
    rcases List.mem_cons.mp hv with rfl | hv'
    · exact Or.inl (Finset.mem_insert_self _ _)
    · rcases h.2 v hv' with hs | hr
      · exact Or.inl (Finset.mem_insert_of_mem hs)
      · exact Or.inr hr

theorem conflictFold_cinv (g : Graph (Option X) (UniversalMarker E X))
    (parent : Fin g.nodeCount)
    (ps : List (ℕ × ((Fin g.nodeCount × Fin g.nodeCount) × UniversalMarker E X)))
    (hps : ∀ p ∈ ps, p.2 ∈ g.edges) (st : CState g.nodeCount X) (h : CInv g st) :
    CInv g (ps.foldl (conflictStep g parent) st) := by
  induction ps generalizing st with
  | nil => exact h
  | cons p ps ih =>
    exact ih (fun q hq => hps q (List.mem_cons_of_mem _ hq)) _
      (conflictStep_cinv g parent st p (hps p (List.mem_cons_self _ _)) h)

theorem conflictLoopF_cinv (g : Graph (Option X) (UniversalMarker E X)) :
    ∀ (fuel : ℕ) (st : CState g.nodeCount X), CInv g st →
      CInv g (conflictLoopF g fuel st) := by
  intro fuel
  induction fuel with
  | zero => exact fun st h => h
  | succ fuel ih =>
    intro st h
    obtain ⟨act, abe, seen, queue, log⟩ := st
    cases queue with
    | nil => exact h
    | cons v rest =>
      show CInv g (conflictLoopF g fuel
        ((outEdgesIdx g v).foldl (conflictStep g v) ⟨act, abe, seen, rest, log⟩))
      refine ih _ ?_
      exact conflictFold_cinv g v (outEdgesIdx g v)
        (fun p hp => (mem_outEdgesIdx_edges hp).1) _ h

theorem conflictInit_cinv (g : Graph (Option X) (UniversalMarker E X)) :
    CInv g (conflictInit g) := by
  constructor
  · exact List.Nodup.filter _ (List.nodup_finRange _)
  · intro v hv
    exact Or.inr (mem_rootList.mp hv)

/-- Claim C9: the `simplify_conflict_markers` traversal is a single forward
pass: starting from the roots, every node enters the queue at most once (the
history of queued nodes has no duplicates, so each node is popped at most
once), and the loop drains its queue — it terminates — within
`(number of roots) + (number of nodes)` iterations, for every finite graph,
cyclic ones included. -/
theorem simplify_conflict_markers_single_pass (g : Graph (Option X) (UniversalMarker E X)) :
    (conflictRun g).queue = [] ∧ (conflictRun g).pushedLog.Nodup := by
  constructor
  · refine conflictLoopF_term g _ _ ?_
    simp [conflictInit]
  · exact (conflictLoopF_cinv g _ _ (conflictInit_cinv g)).1

theorem applyAssume_mem {s : Finset X} {m : UniversalMarker E X} {w : World E X}
    (hw : ∀ x ∈ s, x ∈ w.2) :
    (w ∈ (applyAssume s m).conflict_marker ↔ w ∈ m.conflict_marker) := by
  unfold applyAssume
  have hgen : ∀ (t : Multiset X) (m : UniversalMarker E X), (∀ x ∈ t, x ∈ w.2) →
      (w ∈ (Multiset.foldr (fun (x : X) (m' : UniversalMarker E X) =>
        m'.assume_extra x) m t).conflict_marker ↔ w ∈ m.conflict_marker) := by
    intro t
    refine Multiset.induction_on t ?_ ?_
    · intro m _
      rw [Multiset.foldr_zero]
    · intro a s ih m hm
      rw [Multiset.foldr_cons]
      rw [assume_extra_mem_active _ a w (hm a (Multiset.mem_cons_self a s))]
      exact ih m fun x hx => hm x (Multiset.mem_cons_of_mem hx)
  exact hgen s.val m hw

theorem simplify_conflict_markers_edge_getD (g : Graph (Option X) (UniversalMarker E X))
    (i : ℕ) (hi : i < g.edges.length)
    (dflt : (Fin g.nodeCount × Fin g.nodeCount) × UniversalMarker E X) :
    (simplify_conflict_markers g).edges.getD i dflt =
      ((g.edges.getD i dflt).1,
        applyAssume ((conflictRun g).assume_by_edge i) (g.edges.getD i dflt).2) := by
  unfold simplify_conflict_markers
  have hlen : i < (g.edges.enum.map fun p =>
      (p.2.1, applyAssume ((conflictRun g).assume_by_edge p.1) p.2.2)).length := by
    rw [List.length_map, List.enum_length]
    exact hi
  rw [List.getD_eq_getElem _ _ hlen, List.getD_eq_getElem _ _ hi, List.getElem_map,
    List.getElem_enum]

/-- Counterexample to claim C4 as stated: in the spec's own scenario
`root → P[extra] → Q` (graph `gScenC`), `simplify_conflict_markers` rewrites
the second edge's conflict marker from "the extra is active" to one satisfied
at the world `((), ∅)` where the extra is inactive, while the original marker
is not satisfied there — the simplified predicate is not logically equivalent
to the original over all assignments. -/
theorem simplify_conflict_markers_cex :
    (((), ∅) : World Unit Unit) ∈
      ((simplify_conflict_markers gScenC).edges.getD 1
        (dummyEdge gScenC (by decide))).2.conflict_marker ∧
    (((), ∅) : World Unit Unit) ∉
      (gScenC.edges.getD 1 (dummyEdge gScenC (by decide))).2.conflict_marker := by
  decide

/-- Claim C4 (amended): the conflict predicate produced for each edge by
`simplify_conflict_markers` (iterated `assume_extra`) is equivalent to the
original on every environment/active-extras pair in which all the extras
assumed for that edge are active; on pairs deactivating an assumed extra the
two predicates may differ (see the counterexample). -/
theorem simplify_conflict_markers_equiv_on_assumed
    (g : Graph (Option X) (UniversalMarker E X)) (i : ℕ) (hi : i < g.edges.length)
    (dflt : (Fin g.nodeCount × Fin g.nodeCount) × UniversalMarker E X)
    (w : World E X) (hw : ∀ x ∈ (conflictRun g).assume_by_edge i, x ∈ w.2) :
    (w ∈ ((simplify_conflict_markers g).edges.getD i dflt).2.conflict_marker ↔
      w ∈ (g.edges.getD i dflt).2.conflict_marker) := by
  rw [simplify_conflict_markers_edge_getD g i hi dflt]
  exact applyAssume_mem hw

/-- Witness for amended C4 at a concrete input: on `gScenC`'s second edge the
assumed extra is active in the world `((), {()})`, and the rewritten conflict
marker agrees with the original there. -/
theorem simplify_conflict_markers_equiv_on_assumed_witness :
    1 < gScenC.edges.length ∧
    (∀ x ∈ (conflictRun gScenC).assume_by_edge 1,
      x ∈ ((((), {()}) : World Unit Unit)).2) ∧
    ((((), {()}) : World Unit Unit) ∈
        ((simplify_conflict_markers gScenC).edges.getD 1
          (dummyEdge gScenC (by decide))).2.conflict_marker ↔
      (((), {()}) : World Unit Unit) ∈
        (gScenC.edges.getD 1 (dummyEdge gScenC (by decide))).2.conflict_marker) :=
  ⟨by decide, by decide,
   simplify_conflict_markers_equiv_on_assumed gScenC 1 (by decide)
     (dummyEdge gScenC (by decide)) (((), {()}) : World Unit Unit) (by decide)⟩

end Uv
